import Mathlib

/-!
# Verification of the wallace content-addressable object store

Shallow embedding of the `wallace_volume` crate (and the pieces of
`wallace_fsutil`, `wallace_iterutil` and `wallace_sha256` it uses) in Lean 4,
together with theorems settling the specification claims.

Conventions:
* Byte strings are `List Nat` with each element `< 256`.
* Rust `std::io::Error` is modelled by its `ErrorKind`-level content
  (`IoErr` below), which is all the source ever inspects.
* Fallible Rust functions returning `Result<T>` become `Except IoErr T`;
  functions that mutate the volume return the post-state explicitly.
-/

namespace Wallace

/-- Model of `std::io::Error` at the granularity the source inspects:
the code only ever matches on `ErrorKind::AlreadyExists` and
`ErrorKind::NotFound`, and otherwise propagates errors verbatim; raw OS
errors such as `EISDIR` and `ELOOP` are carried as codes. -/
inductive IoErr : Type
  | alreadyExists
  | notFound
  | osError (code : Nat)
deriving DecidableEq, Repr

/-- `libc::EISDIR`, the raw OS error `insert_from_file` and `get` build with
`Error::from_raw_os_error(libc::EISDIR)` when a file is not regular. -/
def EISDIR : Nat := 21

/-- `libc::ELOOP`, the OS error `open(2)` reports when `O_NOFOLLOW` is set
and the final path component is a symbolic link. -/
def ELOOP : Nat := 40

/-! ## Hash (src/wallace_volume/src/hash.rs) -/

/-- `Hash` from hash.rs: 32 raw bytes.  The bytes live in a plain list;
well-formedness (`Hash.WF`) is stated separately so that the parser, which
constructs only well-formed hashes, can be related to it. -/
structure Hash : Type where
  bytes : List Nat
deriving DecidableEq, Repr

/-- A well-formed hash value: exactly 32 bytes, each an octet.  In Rust this
is enforced by the type `[u8; 32]`. -/
def Hash.WF (h : Hash) : Prop :=
  h.bytes.length = 32 ∧ ∀ b ∈ h.bytes, b < 256

instance (h : Hash) : Decidable h.WF := by
  unfold Hash.WF; infer_instance

/-- ASCII code of the lowercase hex digit for `n < 16`, as produced by Rust's
`write!(f, "{:02x}", byte)` formatting. -/
def hexDigitChar (n : Nat) : Nat :=
  if n < 10 then 48 + n else 97 + (n - 10)

/-- The two lowercase hex digits of one byte, most significant first:
the `{:02x}` format of the `Display` impl for `Hash`. -/
def formatByte (b : Nat) : List Nat :=
  [hexDigitChar (b / 16), hexDigitChar (b % 16)]

/-- `impl fmt::Display for Hash` (hash.rs lines 40–49): formats each byte in
order as two lowercase hex digits, 64 ASCII characters in total. -/
def hashFormat (h : Hash) : List Nat :=
  h.bytes.flatMap formatByte

/-- The nested `fn hex(c: u8)` of `FromStr for Hash` (hash.rs lines 65–72):
digit value of one ASCII character, failing outside `[0-9a-f]`. -/
def hexVal (c : Nat) : Option Nat :=
  if 48 ≤ c ∧ c ≤ 57 then some (c - 48)
  else if 97 ≤ c ∧ c ≤ 102 then some (c - 97 + 10)
  else none

/-- The loop of `FromStr for Hash` over `s.as_bytes().chunks(2)`:
each pair `[hi, lo]` becomes the byte `hex hi << 4 | hex lo`, with the first
failing character aborting the parse.  (The odd trailing chunk case cannot
arise: the caller has checked the length is 64.) -/
def parsePairs : List Nat → Option (List Nat)
  | [] => some []
  | [_] => none
  | hi :: lo :: rest => do
      let h ← hexVal hi
      let l ← hexVal lo
      let r ← parsePairs rest
      pure ((h <<< 4 ||| l) :: r)

/-- `impl FromStr for Hash` (hash.rs lines 55–81): reject unless the input is
exactly 64 bytes long, then decode the 32 hex pairs. -/
def hashParse (s : List Nat) : Option Hash :=
  if s.length = 64 then (parsePairs s).map Hash.mk else none

/-- ASCII byte sequence of a Lean string literal, used to write expected
hex strings readably in the statements. -/
def asciiBytes (s : String) : List Nat :=
  s.toList.map Char.toNat

/-! ## SHA-256 digest

Modelled from the spec: the digest function is an external collaborator
(`wallace_sha256` is a thin FFI binding to libsodium's
`crypto_hash_sha256_*`, whose internals are outside this repository).  The
spec fixes its interface — `init() -> state`, `update(state, bytes)`,
`finalize(state) -> 32 bytes` computing SHA-256 — so we model it as the
SHA-256 function of FIPS 180-4 over byte lists. -/

/-- Truncation to a 32-bit word. -/
def w32 (n : Nat) : Nat := n % 4294967296

/-- Right rotation of a 32-bit word by `n` bits. -/
def rotr (n x : Nat) : Nat := w32 ((x >>> n) ||| (x <<< (32 - n)))

/-- FIPS 180-4 round constants K, written in decimal. -/
def shaK : List Nat :=
  [1116352408, 1899447441, 3049323471, 3921009573, 961987163,
   1508970993, 2453635748, 2870763221, 3624381080, 310598401,
   607225278, 1426881987, 1925078388, 2162078206, 2614888103,
   3248222580, 3835390401, 4022224774, 264347078, 604807628,
   770255983, 1249150122, 1555081692, 1996064986, 2554220882,
   2821834349, 2952996808, 3210313671, 3336571891, 3584528711,
   113926993, 338241895, 666307205, 773529912, 1294757372,
   1396182291, 1695183700, 1986661051, 2177026350, 2456956037,
   2730485921, 2820302411, 3259730800, 3345764771, 3516065817,
   3600352804, 4094571909, 275423344, 430227734, 506948616,
   659060556, 883997877, 958139571, 1322822218, 1537002063,
   1747873779, 1955562222, 2024104815, 2227730452, 2361852424,
   2428436474, 2756734187, 3204031479, 3329325298]

/-- FIPS 180-4 initial hash value H⁽⁰⁾, written in decimal. -/
def shaInit : List Nat :=
  [1779033703, 3144134277, 1013904242, 2773480762, 1359893119,
   2600822924, 528734635, 1541459225]

/-- The big-endian 8-byte encoding of the message bit length. -/
def lenBytes (bitLen : Nat) : List Nat :=
  (List.range 8).map fun i => (bitLen >>> (8 * (7 - i))) % 256

/-- FIPS 180-4 padding: append `0x80`, zeros to 56 mod 64, then the 64-bit
big-endian bit length. -/
def shaPad (msg : List Nat) : List Nat :=
  let len := msg.length
  let zeros := (64 + 55 - len % 64) % 64
  msg ++ [0x80] ++ List.replicate zeros 0 ++ lenBytes (8 * len)

/-- Big-endian 32-bit words of a byte list (whole 4-byte groups). -/
def toWords : List Nat → List Nat
  | b0 :: b1 :: b2 :: b3 :: rest =>
      ((((b0 <<< 8) ||| b1) <<< 8 ||| b2) <<< 8 ||| b3) :: toWords rest
  | _ => []

/-- σ₀ of FIPS 180-4. -/
def smallSigma0 (x : Nat) : Nat := rotr 7 x ^^^ rotr 18 x ^^^ (x >>> 3)

/-- σ₁ of FIPS 180-4. -/
def smallSigma1 (x : Nat) : Nat := rotr 17 x ^^^ rotr 19 x ^^^ (x >>> 10)

/-- Σ₀ of FIPS 180-4. -/
def bigSigma0 (x : Nat) : Nat := rotr 2 x ^^^ rotr 13 x ^^^ rotr 22 x

/-- Σ₁ of FIPS 180-4. -/
def bigSigma1 (x : Nat) : Nat := rotr 6 x ^^^ rotr 11 x ^^^ rotr 25 x

/-- Extend the 16-word message schedule by `n` further words. -/
def extendW (w : List Nat) : Nat → List Nat
  | 0 => w
  | n + 1 =>
      let t := w.length
      let next := w32 (smallSigma1 (w.getD (t - 2) 0) + w.getD (t - 7) 0
                     + smallSigma0 (w.getD (t - 15) 0) + w.getD (t - 16) 0)
      extendW (w ++ [next]) n

/-- One round of the SHA-256 compression function on the working variables
`[a, b, c, d, e, f, g, h]`, given the pair `(Kₜ, Wₜ)`. -/
def compressStep (s : List Nat) (kw : Nat × Nat) : List Nat :=
  match s with
  | [a, b, c, d, e, f, g, h] =>
      let ch := (e &&& f) ^^^ ((e ^^^ 0xffffffff) &&& g)
      let maj := (a &&& b) ^^^ (a &&& c) ^^^ (b &&& c)
      let t1 := w32 (h + bigSigma1 e + ch + kw.1 + kw.2)
      let t2 := w32 (bigSigma0 a + maj)
      [w32 (t1 + t2), a, b, c, w32 (d + t1), e, f, g]
  | _ => s

/-- Process one 64-byte block, updating the intermediate hash value. -/
def processBlock (h : List Nat) (block : List Nat) : List Nat :=
  let w := extendW (toWords block) 48
  let s := (shaK.zip w).foldl compressStep h
  (h.zip s).map fun p => w32 (p.1 + p.2)

/-- Split a byte list into 64-byte blocks (structural recursion on a fuel
argument so that it reduces in the kernel; `l.length` steps always
suffice). -/
def chunks64Go : Nat → List Nat → List (List Nat)
  | 0, _ => []
  | _, [] => []
  | fuel + 1, x :: xs => (x :: xs).take 64 :: chunks64Go fuel ((x :: xs).drop 64)

/-- Split a byte list into 64-byte blocks. -/
def chunks64 (l : List Nat) : List (List Nat) :=
  chunks64Go l.length l

/-- SHA-256 of a byte list, as 32 bytes (big-endian words of the final
intermediate hash value). -/
def sha256 (msg : List Nat) : List Nat :=
  let final := (chunks64 (shaPad msg)).foldl processBlock shaInit
  final.flatMap fun x => [(x >>> 24) % 256, (x >>> 16) % 256, (x >>> 8) % 256, x % 256]

/-- `Hash::from_reader` (hash.rs lines 31–37): drain the reader through the
digest and wrap the resulting 32 bytes.  The reader is modelled by the byte
sequence it yields; I/O errors of the reader are outside the claims. -/
def Hash.from_reader (bytes : List Nat) : Hash :=
  ⟨sha256 bytes⟩

/-! ## Volume (src/wallace_volume/src/volume.rs)

The volume is modelled by the contents of its `objects` subdirectory: an
association list from entry name (the 64 ASCII hex bytes) to the stored
entry.  Directory names are unique; `linkat` refuses to overwrite, which is
what keeps them so.  Functions that may mutate the volume return the
objects directory afterwards next to their `Result`, so that error paths
state exactly which effects have happened. -/

/-- The file type recorded in an inode, as reported by `metadata()`. -/
inductive FileKind : Type
  | regular
  | directory
  | fifo
  | socket
  | charDevice
  | blockDevice
deriving DecidableEq, Repr

/-- An open file handle as `insert_from_file` sees it: inode type, byte
contents, current file offset, and the outcome of `set_permissions` on it
(an environment-determined syscall result: `none` means the chmod
succeeds, `some e` that it fails with `e`). -/
structure MFile : Type where
  kind : FileKind
  contents : List Nat
  offset : Nat
  chmodResult : Option IoErr
deriving DecidableEq, Repr

/-- A directory entry of the `objects` subdirectory. -/
structure StoredEntry : Type where
  kind : FileKind
  contents : List Nat
deriving DecidableEq, Repr

/-- The `objects` subdirectory: name ↦ entry, names unique. -/
abbrev ObjDir : Type := List (List Nat × StoredEntry)

/-- Directory lookup by entry name. -/
def findEntry : ObjDir → List Nat → Option StoredEntry
  | [], _ => none
  | (n, e) :: rest, name => if n = name then some e else findEntry rest name

/-- Number of directory entries carrying `name`. -/
def countName (st : ObjDir) (name : List Nat) : Nat :=
  (st.filter fun p => p.1 = name).length

/-- `fsutil::linkat` as `insert_from_file` uses it (volume.rs lines
119–123): create a new directory entry at `objects/<name>` aliasing the
open file; the kernel refuses with `EEXIST` (ErrorKind `AlreadyExists`)
when the name is taken. -/
def linkatNew (st : ObjDir) (name : List Nat) (f : MFile) : Except IoErr ObjDir :=
  match findEntry st name with
  | some _ => .error .alreadyExists
  | none => .ok ((name, ⟨f.kind, f.contents⟩) :: st)

/-- The tail of `insert_from_file` after the link step (volume.rs lines
133–139): `set_permissions(0o400)` on the *caller's* file, whose outcome
the environment decides; then return the hash. -/
def insertChmod (st : ObjDir) (f : MFile) (h : Hash) : Except IoErr Hash × ObjDir :=
  match f.chmodResult with
  | some e => (.error e, st)
  | none => (.ok h, st)

/-- `Volume::insert_from_file` (volume.rs lines 99–140): reject non-regular
files with raw `EISDIR`; seek to the start; hash the contents; `linkat` the
open file to `objects/<hash>`, absorbing `AlreadyExists`; finally chmod the
caller's file read-only. -/
def insert_from_file (st : ObjDir) (file : MFile) : Except IoErr Hash × ObjDir :=
  if file.kind ≠ .regular then (.error (.osError EISDIR), st)
  else
    let file := { file with offset := 0 }
    let hash := Hash.from_reader (file.contents.drop file.offset)
    let name := hashFormat hash
    match linkatNew st name file with
    | .ok st' => insertChmod st' file hash
    | .error e =>
        if e = .alreadyExists then insertChmod st file hash
        else (.error e, st)

/-- `Volume::insert_from_reader` (volume.rs lines 144–165): drain the
reader into a fresh `O_TMPFILE` regular file inside the volume (owned by
the caller, mode `0o600`, so the later chmod succeeds; after `copy` its
offset sits at the end), then proceed as `insert_from_file`. -/
def insert_from_reader (st : ObjDir) (bytes : List Nat) : Except IoErr Hash × ObjDir :=
  insert_from_file st ⟨.regular, bytes, bytes.length, none⟩

/-- What a path names for `insert_from_path`: either its final component is
a symbolic link — `O_NOFOLLOW` then makes `open` fail with `ELOOP` — or it
opens onto a file handle. -/
inductive PathTarget : Type
  | symlink
  | file (f : MFile)
deriving DecidableEq, Repr

/-- `Volume::insert_from_path` (volume.rs lines 173–199): open the path
with `O_NOCTTY | O_NOFOLLOW | O_CLOEXEC | O_NONBLOCK` (a symlink target
fails here), run the two fcntl calls (they only touch descriptor flags,
never the objects directory — see `restoreBlocking`), then proceed as
`insert_from_file`. -/
def insert_from_path (st : ObjDir) (t : PathTarget) : Except IoErr Hash × ObjDir :=
  match t with
  | .symlink => (.error (.osError ELOOP), st)
  | .file f => insert_from_file st f

/-- `fsutil::openat` of `objects/<name>` as `get` uses it: a missing name
is the `NotFound` OS error; other outcomes (permission denied, I/O error…)
are environment-determined, so `get`'s error handling is stated over an
arbitrary openat outcome via `getFromOpen`. -/
def openatObjects (st : ObjDir) (name : List Nat) : Except IoErr StoredEntry :=
  match findEntry st name with
  | some entry => .ok entry
  | none => .error .notFound

/-- The body of `Volume::get` (volume.rs lines 208–245) after the `openat`
call, parametrised by that call's outcome: `NotFound` becomes `Ok(None)`,
any other error propagates; on success take the size from the metadata and
report raw `EISDIR` (volume corruption) unless the entry is a regular
file. -/
def getFromOpen (r : Except IoErr StoredEntry) :
    Except IoErr (Option (StoredEntry × Nat)) :=
  match r with
  | .error e => if e = .notFound then .ok none else .error e
  | .ok f =>
      let size := f.contents.length
      if f.kind ≠ .regular then .error (.osError EISDIR)
      else .ok (some (f, size))

/-- `Volume::get` on a volume whose `openat` answers from the objects
directory. -/
def get (st : ObjDir) (h : Hash) : Except IoErr (Option (StoredEntry × Nat)) :=
  getFromOpen (openatObjects st (hashFormat h))

/-- One insertion call, via any of the three public insertion methods.
A `fromPath` call carries the file the path opens onto (the symlink case
is the separate `PathTarget.symlink` and always errors). -/
inductive InsertCall : Type
  | fromFile (f : MFile)
  | fromReader (bytes : List Nat)
  | fromPath (f : MFile)
deriving DecidableEq, Repr

/-- Run one insertion call against the volume. -/
def runInsert (st : ObjDir) : InsertCall → Except IoErr Hash × ObjDir
  | .fromFile f => insert_from_file st f
  | .fromReader b => insert_from_reader st b
  | .fromPath f => insert_from_path st (.file f)

/-- The byte sequence an insertion call supplies. -/
def InsertCall.bytes : InsertCall → List Nat
  | .fromFile f => f.contents
  | .fromReader b => b
  | .fromPath f => f.contents

/-- Preconditions under which an insertion call is meant to succeed: the
source is a regular file and the final chmod does not fail (for
`fromReader` the temporary file guarantees both by construction). -/
def InsertCall.Ok : InsertCall → Prop
  | .fromFile f => f.kind = .regular ∧ f.chmodResult = none
  | .fromReader _ => True
  | .fromPath f => f.kind = .regular ∧ f.chmodResult = none

/-! ## Descriptor flags (src/wallace_fsutil/src/fcntl.rs; volume.rs lines
179–196)

A file descriptor carries two separate flag words: the *file status
flags* — access mode, `O_NONBLOCK`, … — read and written by
`fcntl(F_GETFL)`/`fcntl(F_SETFL)`, and the *descriptor flags* — only
`FD_CLOEXEC` — read and written by `fcntl(F_GETFD)`/`fcntl(F_SETFD)`.
`fsutil::fcntl_getfd`/`fcntl_setfd` issue `F_GETFD`/`F_SETFD`. -/

/-- `libc::O_RDONLY`. -/
def O_RDONLY : Nat := 0

/-- `libc::O_NOCTTY`. -/
def O_NOCTTY : Nat := 256

/-- `libc::O_NONBLOCK`. -/
def O_NONBLOCK : Nat := 2048

/-- `libc::O_NOFOLLOW`. -/
def O_NOFOLLOW : Nat := 131072

/-- `libc::O_CLOEXEC`. -/
def O_CLOEXEC : Nat := 524288

/-- `libc::FD_CLOEXEC`. -/
def FD_CLOEXEC : Nat := 1

/-- The custom flag word `insert_from_path` passes to `open`
(volume.rs lines 180–184). -/
def insertOpenFlags : Nat := O_NOCTTY ||| O_NOFOLLOW ||| O_CLOEXEC ||| O_NONBLOCK

/-- The two flag words of one open descriptor. -/
structure FdState : Type where
  statusFlags : Nat
  fdFlags : Nat
deriving DecidableEq, Repr

/-- `fsutil::fcntl_getfd` (fcntl.rs lines 7–19): `fcntl(F_GETFD)`, which
returns the descriptor flags. -/
def fcntl_getfd (f : FdState) : Nat := f.fdFlags

/-- `fsutil::fcntl_setfd` (fcntl.rs lines 22–34): `fcntl(F_SETFD, arg)`,
which replaces the descriptor flags. -/
def fcntl_setfd (f : FdState) (arg : Nat) : FdState := { f with fdFlags := arg }

/-- The descriptor state right after `insert_from_path`'s `open` call: the
kernel records the access mode and `O_NONBLOCK` in the status flags
(`O_NOCTTY`/`O_NOFOLLOW` only steer the open itself), and `O_CLOEXEC` as
`FD_CLOEXEC` in the descriptor flags. -/
def openForInsert : FdState :=
  { statusFlags := O_RDONLY ||| O_NONBLOCK, fdFlags := FD_CLOEXEC }

/-- The "switch the file back to blocking mode" step of `insert_from_path`
(volume.rs lines 192–196): `fcntl_setfd(file, fcntl_getfd(file) &
!O_NONBLOCK)`, with `!` the 32-bit complement on `c_int`. -/
def restoreBlocking (f : FdState) : FdState :=
  let fd_flags := fcntl_getfd f
  fcntl_setfd f (fd_flags &&& (4294967295 ^^^ O_NONBLOCK))

/-! ## Enumeration: `Volume::all` and the union layer
(src/wallace_volume/src/union.rs, src/wallace_iterutil/src/iter_result_iter.rs) -/

/-- Modelled from the spec: `Volume::all` is missing from the source tree —
only its caller `union_all` (union.rs line 34) survives — and the spec
defines it as: open the object subdirectory, iterate its entries, discard
any entry whose name does not parse as a valid `Hash`, yield the rest as
parsed Hashes; an iteration error yields a single failing element and then
ends.  The readdir stream is modelled by the successive outcomes of
`fsutil::readdir` (an entry name, or the error that ends the walk). -/
def allLoop : List (Except IoErr (List Nat)) → List (Except IoErr Hash)
  | [] => []
  | .error e :: _ => [.error e]
  | .ok name :: rest =>
      match hashParse name with
      | some h => .ok h :: allLoop rest
      | none => allLoop rest

/-- Modelled from the spec: `Volume::all` opens the object subdirectory —
failing if that open fails — and lazily walks it as `allLoop`. -/
def Volume.all (openResult : Except IoErr (List (Except IoErr (List Nat)))) :
    Except IoErr (List (Except IoErr Hash)) :=
  openResult.map allLoop

/-- `Result::transpose`, as `union_get` applies it at union.rs line 18:
`Ok(None) ↦ None`, `Ok(Some x) ↦ Some(Ok x)`, `Err e ↦ Some(Err e)`. -/
def exceptTranspose {α : Type} : Except IoErr (Option α) → Option (Except IoErr α)
  | .ok none => none
  | .ok (some x) => some (.ok x)
  | .error e => some (.error e)

/-- `Option::transpose`, as `union_get` applies it at union.rs line 20:
`None ↦ Ok(None)`, `Some(Ok x) ↦ Ok(Some x)`, `Some(Err e) ↦ Err e`. -/
def optionTranspose {α : Type} : Option (Except IoErr α) → Except IoErr (Option α)
  | none => .ok none
  | some (.ok x) => .ok (some x)
  | some (.error e) => .error e

/-- `union_get` (union.rs lines 11–21), with each volume modelled by the
outcome its `get(hash)` call would return, listed in the given volume
order: map `get` over the volumes, drop the `Ok(None)` answers via
`transpose`, take the first remaining element, and transpose back. -/
def union_get {α : Type} (results : List (Except IoErr (Option α))) :
    Except IoErr (Option α) :=
  optionTranspose (results.filterMap exceptTranspose).head?

/-- `iter_result_iter` (iter_result_iter.rs lines 10–34) on the list
model: an `Ok` iterator yields its items wrapped in `Ok`, an `Err` yields
the error once. -/
def iter_result_iter {α : Type} : Except IoErr (List α) → List (Except IoErr α)
  | .ok items => items.map .ok
  | .error e => [.error e]

/-- The closure `|r| r.unwrap_or_else(Err)` of union.rs line 36. -/
def unwrapOrElseErr {α : Type} : Except IoErr (Except IoErr α) → Except IoErr α
  | .ok r => r
  | .error e => .error e

/-- `union_all` (union.rs lines 27–37), with each volume modelled by its
`all()` outcome (either an open failure, or the entry-by-entry results of
the walk): flat-map `iter_result_iter` over them and flatten the nesting
with `unwrap_or_else(Err)`. -/
def union_all (alls : List (Except IoErr (List (Except IoErr Hash)))) :
    List (Except IoErr Hash) :=
  (alls.flatMap fun a => iter_result_iter a).map unwrapOrElseErr

theorem hexVal_hexDigitChar : ∀ n < 16, hexVal (hexDigitChar n) = some n := by
  decide

theorem shiftOr_eq_of_lt : ∀ h < 16, ∀ l < 16, (h <<< 4 ||| l) = 16 * h + l := by
  decide

theorem parsePairs_formatByte (b : Nat) (hb : b < 256) (rest : List Nat) :
    parsePairs (formatByte b ++ rest) = (parsePairs rest).map (b :: ·) := by
  have hdiv : b / 16 < 16 := Nat.div_lt_of_lt_mul hb
  have hmod : b % 16 < 16 := Nat.mod_lt _ (by norm_num)
  have h1 := hexVal_hexDigitChar _ hdiv
  have h2 := hexVal_hexDigitChar _ hmod
  have h3 := shiftOr_eq_of_lt _ hdiv _ hmod
  have hshape : formatByte b ++ rest
      = hexDigitChar (b / 16) :: hexDigitChar (b % 16) :: rest := rfl
  rw [hshape]
  have h4 : 16 * (b / 16) + b % 16 = b := Nat.div_add_mod b 16
  simp only [parsePairs, h1, h2, Option.bind_eq_bind, Option.some_bind, h3, h4]
  cases parsePairs rest <;> rfl

theorem parsePairs_flatMap (bs : List Nat) (hb : ∀ b ∈ bs, b < 256) :
    parsePairs (bs.flatMap formatByte) = some bs := by
  induction bs with
  | nil => rfl
  | cons b bs ih =>
      have hb0 : b < 256 := hb b (List.mem_cons_self _ _)
      have hbs : ∀ x ∈ bs, x < 256 := fun x hx => hb x (List.mem_cons_of_mem _ hx)
      simp [List.flatMap_cons, parsePairs_formatByte b hb0, ih hbs]

theorem length_flatMap_formatByte (bs : List Nat) :
    (bs.flatMap formatByte).length = 2 * bs.length := by
  induction bs with
  | nil => rfl
  | cons b bs ih => simp [List.flatMap_cons, formatByte, ih]; ring

theorem hexVal_isSome_of_parsePairs_some :
    ∀ s l, parsePairs s = some l → ∀ c ∈ s, hexVal c ≠ none := by
  intro s
  induction s using parsePairs.induct with
  | case1 => intro l _ c hc; cases hc
  | case2 x => intro l hl; cases hl
  | case3 hi lo rest ih =>
      intro l hl c hc
      simp only [parsePairs, Option.bind_eq_bind, bind, Option.bind] at hl
      rcases hhi : hexVal hi with _ | vhi
      · rw [hhi] at hl; cases hl
      rw [hhi] at hl
      rcases hlo : hexVal lo with _ | vlo
      · rw [hlo] at hl; cases hl
      rw [hlo] at hl
      rcases hr : parsePairs rest with _ | r
      · rw [hr] at hl; cases hl
      rw [List.mem_cons, List.mem_cons] at hc
      rcases hc with rfl | rfl | hc
      · rw [hhi]; exact fun h => by cases h
      · rw [hlo]; exact fun h => by cases h
      · exact ih r hr c hc

/-- C2: for every valid `Hash` `h`, parsing its formatted text form gives
back `h`; parsing fails for any string that is not exactly 64 characters,
and for any 64-character string containing a character outside `[0-9a-f]`
(`hexVal c = none` exactly characterises such characters, and every
uppercase letter, `65 ≤ c ≤ 90`, is among them — rejected, not
normalized). -/
theorem C2_hash_parse_format :
    (∀ h : Hash, h.WF → hashParse (hashFormat h) = some h)
  ∧ (∀ s : List Nat, s.length ≠ 64 → hashParse s = none)
  ∧ (∀ s : List Nat, s.length = 64 →
      (∃ c ∈ s, hexVal c = none) → hashParse s = none)
  ∧ (∀ c : Nat, ¬((48 ≤ c ∧ c ≤ 57) ∨ (97 ≤ c ∧ c ≤ 102)) → hexVal c = none)
  ∧ (∀ c : Nat, 65 ≤ c → c ≤ 90 → hexVal c = none) := by
  refine ⟨?_, ?_, ?_, ?_, ?_⟩
  · rintro h ⟨hlen, hbytes⟩
    unfold hashParse hashFormat
    rw [length_flatMap_formatByte, hlen]
    simp [parsePairs_flatMap h.bytes hbytes]
  · intro s hlen
    unfold hashParse
    rw [if_neg hlen]
  · rintro s hlen ⟨c, hc, hhex⟩
    unfold hashParse
    rw [if_pos hlen]
    rcases hp : parsePairs s with _ | l
    · rfl
    · exact absurd hhex (hexVal_isSome_of_parsePairs_some s l hp c hc)
  · intro c hc
    have h1 : ¬(48 ≤ c ∧ c ≤ 57) := fun h => hc (Or.inl h)
    have h2 : ¬(97 ≤ c ∧ c ≤ 102) := fun h => hc (Or.inr h)
    simp [hexVal, h1, h2]
  · intro c h65 h90
    simp only [hexVal]
    rw [if_neg (by omega), if_neg (by omega)]

/-- Witness for C2 at concrete inputs: a concrete 32-byte hash
round-trips, a 4-character string fails to parse, and the all-uppercase
64-character hex string fails to parse. -/
theorem C2_hash_parse_format_witness :
    hashParse (hashFormat ⟨List.replicate 32 171⟩) = some ⟨List.replicate 32 171⟩
  ∧ hashParse (asciiBytes "e3b0") = none
  ∧ hashParse (asciiBytes
      "E3B0C44298FC1C149AFBF4C8996FB92427AE41E4649B934CA495991B7852B855")
      = none :=
  ⟨C2_hash_parse_format.1 _ (by decide),
   C2_hash_parse_format.2.1 _ (by decide),
   C2_hash_parse_format.2.2.1 _ (by decide) ⟨69, by decide, by decide⟩⟩

theorem countName_cons (n : List Nat) (e : StoredEntry) (st : ObjDir)
    (name : List Nat) :
    countName ((n, e) :: st) name
      = (if n = name then 1 else 0) + countName st name := by
  by_cases hn : n = name <;>
    simp [countName, List.filter_cons, hn, Nat.add_comm]

theorem findEntry_none_countName (st : ObjDir) (name : List Nat)
    (h : findEntry st name = none) : countName st name = 0 := by
  induction st with
  | nil => rfl
  | cons p rest ih =>
      obtain ⟨n, e⟩ := p
      simp only [findEntry] at h
      by_cases hn : n = name
      · rw [if_pos hn] at h; cases h
      · rw [if_neg hn] at h
        rw [countName_cons, if_neg hn, ih h]

theorem findEntry_some_countName (st : ObjDir) (name : List Nat)
    (e : StoredEntry) (h : findEntry st name = some e) :
    1 ≤ countName st name := by
  induction st with
  | nil => cases h
  | cons p rest ih =>
      obtain ⟨n, e'⟩ := p
      simp only [findEntry] at h
      by_cases hn : n = name
      · rw [countName_cons, if_pos hn]; omega
      · rw [if_neg hn] at h
        rw [countName_cons, if_neg hn]
        have := ih h
        omega

theorem insert_from_file_ok (st : ObjDir) (f : MFile)
    (hk : f.kind = .regular) (hc : f.chmodResult = none) :
    insert_from_file st f =
      match findEntry st (hashFormat (Hash.from_reader f.contents)) with
      | some _ => (.ok (Hash.from_reader f.contents), st)
      | none => (.ok (Hash.from_reader f.contents),
          (hashFormat (Hash.from_reader f.contents), ⟨.regular, f.contents⟩) :: st) := by
  unfold insert_from_file
  rw [if_neg (by simp [hk])]
  simp only [List.drop_zero]
  unfold linkatNew
  cases hfind : findEntry st (hashFormat (Hash.from_reader f.contents)) with
  | some e' => simp [insertChmod, hc]
  | none => simp [insertChmod, hc, hk]

theorem runInsert_ok_spec (st : ObjDir) (c : InsertCall) (hok : c.Ok) :
    runInsert st c =
      match findEntry st (hashFormat (Hash.from_reader c.bytes)) with
      | some _ => (.ok (Hash.from_reader c.bytes), st)
      | none => (.ok (Hash.from_reader c.bytes),
          (hashFormat (Hash.from_reader c.bytes), ⟨.regular, c.bytes⟩) :: st) := by
  cases c with
  | fromFile f =>
      obtain ⟨hk, hc⟩ := hok
      exact insert_from_file_ok st f hk hc
  | fromReader b =>
      exact insert_from_file_ok st ⟨.regular, b, b.length, none⟩ rfl rfl
  | fromPath f =>
      obtain ⟨hk, hc⟩ := hok
      exact insert_from_file_ok st f hk hc

/-- C1: inserting the same byte sequence twice, by any two of the insertion
methods, returns the same `Hash` both times; afterwards the volume holds
exactly one backing object under that hash's name; and the second
insertion succeeds although its link step reports `AlreadyExists` — the
error is absorbed, not surfaced. -/
theorem C1_insert_dedup_idempotent (st : ObjDir) (c1 c2 : InsertCall)
    (b : List Nat) (h1 : c1.Ok) (h2 : c2.Ok)
    (hb1 : c1.bytes = b) (hb2 : c2.bytes = b)
    (hst : countName st (hashFormat (Hash.from_reader b)) ≤ 1) :
    ∃ st' : ObjDir,
      runInsert st c1 = (.ok (Hash.from_reader b), st')
    ∧ runInsert st' c2 = (.ok (Hash.from_reader b), st')
    ∧ countName st' (hashFormat (Hash.from_reader b)) = 1
    ∧ ∀ f : MFile, linkatNew st' (hashFormat (Hash.from_reader b)) f
        = .error .alreadyExists := by
  have spec1 := runInsert_ok_spec st c1 h1
  rw [hb1] at spec1
  have spec2 := fun t => runInsert_ok_spec t c2 h2
  cases hfind : findEntry st (hashFormat (Hash.from_reader b)) with
  | some e =>
      refine ⟨st, ?_, ?_, ?_, ?_⟩
      · rw [spec1, hfind]
      · have s2 := spec2 st; rw [hb2, hfind] at s2; exact s2
      · have := findEntry_some_countName st _ e hfind
        omega
      · intro f; unfold linkatNew; rw [hfind]
  | none =>
      refine ⟨(hashFormat (Hash.from_reader b), ⟨.regular, b⟩) :: st, ?_, ?_, ?_, ?_⟩
      · rw [spec1, hfind]
      · have s2 := spec2 ((hashFormat (Hash.from_reader b), ⟨.regular, b⟩) :: st)
        rw [hb2] at s2
        rw [s2]
        simp [findEntry]
      · rw [countName_cons, if_pos rfl, findEntry_none_countName st _ hfind]
      · intro f; simp [linkatNew, findEntry]

/-- Witness for C1: inserting the empty byte sequence into an empty volume
through `insert_from_reader` and then through `insert_from_file`. -/
theorem C1_insert_dedup_idempotent_witness :
    ∃ st' : ObjDir,
      runInsert [] (.fromReader []) = (.ok (Hash.from_reader []), st')
    ∧ runInsert st' (.fromFile ⟨.regular, [], 0, none⟩)
        = (.ok (Hash.from_reader []), st')
    ∧ countName st' (hashFormat (Hash.from_reader [])) = 1
    ∧ ∀ f : MFile, linkatNew st' (hashFormat (Hash.from_reader [])) f
        = .error .alreadyExists :=
  C1_insert_dedup_idempotent [] (.fromReader []) (.fromFile ⟨.regular, [], 0, none⟩)
    [] trivial ⟨rfl, rfl⟩ rfl rfl (by decide)

/-- C5: `get` turns the `NotFound` OS error into `Ok(None)` — in
particular, on a freshly created empty volume it returns `Ok(None)` for
every hash; it propagates every other OS error; and when the open
succeeds on a non-regular entry it reports corruption as the raw `EISDIR`
error rather than returning a handle. -/
theorem C5_get_error_handling :
    (∀ h : Hash, get [] h = .ok none)
  ∧ getFromOpen (.error .notFound) = .ok none
  ∧ (∀ e : IoErr, e ≠ .notFound → getFromOpen (.error e) = .error e)
  ∧ (∀ f : StoredEntry, f.kind ≠ .regular →
       getFromOpen (.ok f) = .error (.osError EISDIR)) := by
  refine ⟨fun h => rfl, rfl, ?_, ?_⟩
  · intro e he; simp [getFromOpen, he]
  · intro f hf; simp [getFromOpen, hf]

/-- Witness for C5: a permission-denied error (`EACCES` = 13) propagates,
and a directory found in an object slot is reported as corruption. -/
theorem C5_get_error_handling_witness :
    getFromOpen (.error (.osError 13)) = .error (.osError 13)
  ∧ getFromOpen (.ok ⟨.directory, []⟩) = .error (.osError EISDIR) :=
  ⟨C5_get_error_handling.2.2.1 _ (by decide),
   C5_get_error_handling.2.2.2 _ (by decide)⟩

/-- C6: inserting a non-regular file — a directory, FIFO, socket,
character or block device via any insertion method, or a symlink via
`insert_from_path` — always fails, and the objects directory is returned
exactly as it was. -/
theorem C6_insert_non_regular_rejected :
    (∀ (st : ObjDir) (f : MFile), f.kind ≠ .regular →
       insert_from_file st f = (.error (.osError EISDIR), st))
  ∧ (∀ st : ObjDir, insert_from_path st .symlink = (.error (.osError ELOOP), st))
  ∧ (∀ (st : ObjDir) (f : MFile), f.kind ≠ .regular →
       insert_from_path st (.file f) = (.error (.osError EISDIR), st)) := by
  refine ⟨?_, fun st => rfl, ?_⟩ <;>
    · intro st f hf
      simp only [insert_from_path, insert_from_file, if_pos hf]

/-- Witness for C6: a FIFO handed to `insert_from_file` and a directory
handed to `insert_from_path` are rejected with the volume unchanged. -/
theorem C6_insert_non_regular_rejected_witness :
    insert_from_file [] ⟨.fifo, [], 0, none⟩ = (.error (.osError EISDIR), [])
  ∧ insert_from_path [] (.file ⟨.directory, [], 0, none⟩)
      = (.error (.osError EISDIR), []) :=
  ⟨C6_insert_non_regular_rejected.1 [] _ (by decide),
   C6_insert_non_regular_rejected.2.2 [] _ (by decide)⟩

/-- C10: when the link step has succeeded but the subsequent
`set_permissions` on the caller's file fails, `insert_from_file` returns
that error although the object is already stored — and `get` on the
post-state retrieves it.  Insertion is not atomic with respect to this
post-link failure. -/
theorem C10_insert_error_after_link (st : ObjDir) (f : MFile) (e : IoErr)
    (hk : f.kind = .regular) (hc : f.chmodResult = some e)
    (habs : findEntry st (hashFormat (Hash.from_reader f.contents)) = none) :
    insert_from_file st f
      = (.error e,
         (hashFormat (Hash.from_reader f.contents), ⟨.regular, f.contents⟩) :: st)
    ∧ get ((hashFormat (Hash.from_reader f.contents), ⟨.regular, f.contents⟩) :: st)
          (Hash.from_reader f.contents)
      = .ok (some (⟨.regular, f.contents⟩, f.contents.length)) := by
  constructor
  · unfold insert_from_file
    rw [if_neg (by simp [hk])]
    simp only [List.drop_zero]
    unfold linkatNew
    rw [habs]
    simp [insertChmod, hc, hk]
  · simp [get, openatObjects, findEntry, getFromOpen]

/-- Witness for C10: inserting the empty file into an empty volume with a
failing chmod (`EACCES` = 13) errors, yet stores the object
retrievably. -/
theorem C10_insert_error_after_link_witness :
    insert_from_file [] ⟨.regular, [], 0, some (.osError 13)⟩
      = (.error (.osError 13),
         [(hashFormat (Hash.from_reader []), ⟨.regular, []⟩)])
    ∧ get [(hashFormat (Hash.from_reader []), ⟨.regular, []⟩)]
          (Hash.from_reader [])
      = .ok (some (⟨.regular, []⟩, 0)) :=
  C10_insert_error_after_link [] ⟨.regular, [], 0, some (.osError 13)⟩
    (.osError 13) rfl rfl (by decide)

/-- C9: the digest of the empty byte sequence and of the ASCII bytes of
"Hello, world!", computed by `Hash::from_reader` and rendered by the
`Display` impl, are the two expected 64-character hex strings. -/
theorem C9_digest_test_vectors :
    hashFormat (Hash.from_reader [])
      = asciiBytes
          "e3b0c44298fc1c149afbf4c8996fb92427ae41e4649b934ca495991b7852b855"
  ∧ hashFormat (Hash.from_reader (asciiBytes "Hello, world!"))
      = asciiBytes
          "315f5bdb76d078c43b8ac0064e4a0164612b1fce77c869345bfc94c75894edd3" := by
  constructor <;> decide

/-- C3: `all()` walks the opened object subdirectory; with an error-free
readdir stream it yields exactly the entries whose names parse as Hashes,
parsed, in order (everything else silently discarded); a readdir error
makes it yield exactly that one failing element and end, whatever entries
would have followed; in particular `.` and `..` are discarded. -/
theorem C3_all_enumeration :
    (∀ stream : List (Except IoErr (List Nat)),
        Volume.all (.ok stream) = .ok (allLoop stream))
  ∧ (∀ entries : List (List Nat),
        allLoop (entries.map .ok)
          = ((entries.filterMap hashParse).map .ok : List (Except IoErr Hash)))
  ∧ (∀ (entries : List (List Nat)) (e : IoErr)
        (rest : List (Except IoErr (List Nat))),
        allLoop (entries.map .ok ++ .error e :: rest)
          = (entries.filterMap hashParse).map .ok ++ [.error e])
  ∧ allLoop [.ok (asciiBytes "."), .ok (asciiBytes "..")] = [] := by
  refine ⟨fun stream => rfl, ?_, ?_, by rfl⟩
  · intro entries
    induction entries with
    | nil => rfl
    | cons n es ih =>
        simp only [List.map_cons, allLoop, List.filterMap_cons]
        cases hashParse n <;> simp [ih]
  · intro entries e rest
    induction entries with
    | nil => rfl
    | cons n es ih =>
        simp only [List.map_cons, List.cons_append, allLoop, List.filterMap_cons]
        cases hashParse n <;> simp [ih]

/-- C4, the code defect: the flag word passed to `open` does contain
`O_NOFOLLOW`, `O_NOCTTY`, `O_CLOEXEC` and `O_NONBLOCK`, but the "switch
the file back to blocking mode" step goes through
`fcntl_getfd`/`fcntl_setfd` — `F_GETFD`/`F_SETFD`, which act on the
descriptor flags, not on the status flags where `O_NONBLOCK` lives.  On
the descriptor state produced by the open, the restore step is a no-op
and `O_NONBLOCK` remains set afterwards. -/
theorem C4_restore_leaves_nonblock_set :
    (insertOpenFlags &&& O_NOFOLLOW ≠ 0
   ∧ insertOpenFlags &&& O_NOCTTY ≠ 0
   ∧ insertOpenFlags &&& O_CLOEXEC ≠ 0
   ∧ insertOpenFlags &&& O_NONBLOCK ≠ 0)
  ∧ restoreBlocking openForInsert = openForInsert
  ∧ (restoreBlocking openForInsert).statusFlags &&& O_NONBLOCK = O_NONBLOCK := by
  decide

theorem filterMap_exceptTranspose_nil {α : Type}
    (pre : List (Except IoErr (Option α)))
    (h : ∀ r ∈ pre, r = .ok none) :
    pre.filterMap exceptTranspose = [] := by
  induction pre with
  | nil => rfl
  | cons r rest ih =>
      have hr := h r (List.mem_cons_self _ _)
      subst hr
      simp only [List.filterMap_cons, exceptTranspose]
      exact ih fun x hx => h x (List.mem_cons_of_mem _ hx)

/-- C7: `union_get` over the ordered per-volume `get` outcomes returns the
first present result, skipping exactly the volumes that report absence
before it; it returns absence only when every volume reports absence (and
conversely); and an error met before any hit propagates, whatever comes
after. -/
theorem C7_union_get_first_hit {α : Type} :
    (∀ results : List (Except IoErr (Option α)),
        (∀ r ∈ results, r = .ok none) → union_get results = .ok none)
  ∧ (∀ (pre : List (Except IoErr (Option α))) (x : α)
        (rest : List (Except IoErr (Option α))),
        (∀ r ∈ pre, r = .ok none) →
        union_get (pre ++ .ok (some x) :: rest) = .ok (some x))
  ∧ (∀ (pre : List (Except IoErr (Option α))) (e : IoErr)
        (rest : List (Except IoErr (Option α))),
        (∀ r ∈ pre, r = .ok none) →
        union_get (pre ++ .error e :: rest) = .error e)
  ∧ (∀ results : List (Except IoErr (Option α)),
        union_get results = .ok none → ∀ r ∈ results, r = .ok none) := by
  refine ⟨?_, ?_, ?_, ?_⟩
  · intro results h
    unfold union_get
    rw [filterMap_exceptTranspose_nil results h]
    rfl
  · intro pre x rest h
    unfold union_get
    rw [List.filterMap_append, filterMap_exceptTranspose_nil pre h]
    simp [List.filterMap_cons, exceptTranspose, optionTranspose]
  · intro pre e rest h
    unfold union_get
    rw [List.filterMap_append, filterMap_exceptTranspose_nil pre h]
    simp [List.filterMap_cons, exceptTranspose, optionTranspose]
  · intro results
    induction results with
    | nil => intro _ r hr; cases hr
    | cons r rest ih =>
        intro hget s hs
        rcases r with e | o
        · simp [union_get, List.filterMap_cons, exceptTranspose, optionTranspose] at hget
        · rcases o with _ | x
          · rw [List.mem_cons] at hs
            rcases hs with rfl | hs
            · rfl
            · refine ih ?_ s hs
              simpa [union_get, List.filterMap_cons, exceptTranspose] using hget
          · simp [union_get, List.filterMap_cons, exceptTranspose, optionTranspose] at hget

/-- Witness for C7: with one absent volume in front, a hit is returned
and an error propagates, regardless of a later volume that also has the
object. -/
theorem C7_union_get_first_hit_witness :
    union_get ([.ok none] ++ .ok (some 5) :: [.ok (some 7)]) = .ok (some 5)
  ∧ union_get ([.ok none] ++ .error (.osError 5) :: [.ok (some 7)])
      = .error (.osError 5)
  ∧ union_get ([.ok none, .ok none] : List (Except IoErr (Option Nat))) = .ok none :=
  ⟨C7_union_get_first_hit.2.1 [.ok none] 5 [.ok (some 7)]
     (fun r hr => by rw [List.mem_singleton] at hr; exact hr),
   C7_union_get_first_hit.2.2.1 [.ok none] (.osError 5) [.ok (some 7)]
     (fun r hr => by rw [List.mem_singleton] at hr; exact hr),
   C7_union_get_first_hit.1 [.ok none, .ok none]
     (fun r hr => by
       rw [List.mem_cons, List.mem_singleton] at hr
       rcases hr with rfl | rfl <;> rfl)⟩

/-- C8: `union_all` is the in-order concatenation of the per-volume
enumeration outputs — a volume whose `all()` failed to open contributes
its error as one in-line element, an enumerating volume contributes its
item sequence verbatim (per-entry errors in-line, duplicates across
volumes retained). -/
theorem C8_union_all_concat :
    (∀ alls : List (Except IoErr (List (Except IoErr Hash))),
       union_all alls = alls.flatMap fun a =>
         match a with
         | .ok items => items
         | .error e => [.error e])
  ∧ (∀ l1 l2 : List (Except IoErr Hash),
       union_all [.ok l1, .ok l2] = l1 ++ l2)
  ∧ (∀ (l1 : List (Except IoErr Hash)) (e : IoErr)
       (l2 : List (Except IoErr Hash)),
       union_all [.ok l1, .error e, .ok l2] = l1 ++ .error e :: l2) := by
  have main : ∀ alls : List (Except IoErr (List (Except IoErr Hash))),
      union_all alls = alls.flatMap fun a =>
        match a with
        | .ok items => items
        | .error e => [.error e] := by
    intro alls
    induction alls with
    | nil => rfl
    | cons a rest ih =>
        have step : union_all (a :: rest)
            = (iter_result_iter a).map unwrapOrElseErr ++ union_all rest := by
          simp [union_all, List.flatMap_cons, List.map_append]
        rw [List.flatMap_cons, step, ih]
        rcases a with e | items
        · rfl
        · show (items.map Except.ok).map unwrapOrElseErr ++ _ = items ++ _
          have hid : unwrapOrElseErr ∘ (Except.ok : Except IoErr Hash → _) = id :=
            funext fun r => rfl
          rw [List.map_map, hid, List.map_id]
  refine ⟨main, ?_, ?_⟩
  · intro l1 l2
    rw [main]
    simp
  · intro l1 e l2
    rw [main]
    simp

end Wallace
